import Mathlib

/-!
Verification of the triple sampling and filtered ranking-evaluation engine
of the `mkb` knowledge-graph embedding repository.

The Lean definitions below are shallow embeddings of the Python source:

* `src/kdmkr/stream/fetch_dataset.py` (`FetchDataset`): the alternating
  head-batch / tail-batch training stream;
* `src/kdmkb/evaluation/evaluation.py` (`Evaluation.compute_score`,
  `Evaluation.eval`): filtered ranking evaluation and metric accumulation;
* `src/mkb/datasets/multi_kb.py` (`MultiKb.split_train`,
  `MultiKb.corrupt_entities`, `MultiKb.true_triples`).

Machine floats of the source are modelled over `ℚ` (scores, running means)
and `ℝ` (square roots); PyTorch `DataLoader` batching is modelled as
chunking of the underlying triple list, which is what it does for the
configuration used by the repository (`shuffle=False`, `drop_last=False`).
-/

namespace Mkb

/-- A knowledge-graph triple `(head, relation, tail)` of dense integer ids. -/
abbrev Triple := ℕ × ℕ × ℕ

/-- Corruption mode tag carried by every batch
(`'head-batch'` / `'tail-batch'` strings in the source). -/
inductive Mode where
  | headBatch : Mode
  | tailBatch : Mode
deriving DecidableEq, Repr

/-- Fuel-driven worker for `chunks`; the fuel is an upper bound on the
list length, so the recursion is structural and kernel-computable. -/
def chunksGo (b : ℕ) : ℕ → List α → List (List α)
  | _, [] => []
  | 0, _ :: _ => []
  | fuel + 1, x :: xs => (x :: xs.take (b - 1)) :: chunksGo b fuel (xs.drop (b - 1))

/-- One epoch of PyTorch `DataLoader` batching over a list: consecutive
chunks of size `b` (the last chunk of an epoch may be shorter, matching
`drop_last=False`). -/
def chunks (b : ℕ) (l : List α) : List (List α) := chunksGo b l.length l

/-- The worker ignores the exact fuel as long as it dominates the list
length. -/
theorem chunksGo_congr (b : ℕ) :
    ∀ (f₁ : ℕ) (l : List α) (f₂ : ℕ), l.length ≤ f₁ → l.length ≤ f₂ →
      chunksGo b f₁ l = chunksGo b f₂ l := by
  intro f₁
  induction f₁ with
  | zero =>
    intro l f₂ h₁ _
    rw [List.length_eq_zero.1 (Nat.le_zero.1 h₁)]
    cases f₂ <;> rfl
  | succ n ih =>
    intro l f₂ h₁ h₂
    cases l with
    | nil => cases f₂ <;> rfl
    | cons x xs =>
      cases f₂ with
      | zero => exact absurd h₂ (by simp)
      | succ m =>
        rw [chunksGo, chunksGo]
        have hd : (xs.drop (b - 1)).length ≤ xs.length :=
          List.length_drop .. ▸ Nat.sub_le _ _
        simp only [List.length_cons] at h₁ h₂
        exact congrArg _ (ih _ _ (by omega) (by omega))

/-- The defining cons equation of `chunks`. -/
theorem chunks_cons (b : ℕ) (x : α) (xs : List α) :
    chunks b (x :: xs) = (x :: xs.take (b - 1)) :: chunks b (xs.drop (b - 1)) := by
  rw [chunks, List.length_cons, chunksGo, chunks]
  refine congrArg _ (chunksGo_congr b _ _ _ ?_ le_rfl)
  exact List.length_drop .. ▸ Nat.sub_le _ _

/-- Concatenating the chunks of an epoch recovers the underlying list:
`DataLoader` batching drops no element. -/
theorem chunks_flatten (b : ℕ) : ∀ l : List α, (chunks b l).flatten = l
  | [] => rfl
  | x :: xs => by
    rw [chunks_cons, List.flatten_cons, chunks_flatten b (xs.drop (b - 1)),
      List.cons_append, List.take_append_drop]
termination_by l => l.length
decreasing_by
  simp only [List.length_cons]
  exact Nat.lt_succ_of_le (List.length_drop .. ▸ Nat.sub_le _ _)

/-- A nonempty list has at least one batch per epoch. -/
theorem chunks_ne_nil (b : ℕ) (l : List α) (h : l ≠ []) : chunks b l ≠ [] := by
  cases l with
  | nil => exact absurd rfl h
  | cons x xs => rw [chunks_cons]; simp

/-- Every batch produced by an epoch is nonempty. -/
theorem chunks_mem_ne_nil (b : ℕ) : ∀ (l : List α), ∀ c ∈ chunks b l, c ≠ []
  | [], c, hc => by simp [chunks, chunksGo] at hc
  | x :: xs, c, hc => by
    rw [chunks_cons] at hc
    rcases List.mem_cons.1 hc with h | h
    · subst h; simp
    · exact chunks_mem_ne_nil b (xs.drop (b - 1)) c h
termination_by l => l.length
decreasing_by
  simp only [List.length_cons]
  exact Nat.lt_succ_of_le (List.length_drop .. ▸ Nat.sub_le _ _)

instance : DecidableEq (List Triple × Mode) := fun a b =>
  instDecidableEqProd a b

/-- The mutable cursor state of `FetchDataset`: the pull counter
`self.step` and the positions reached in the two infinite sub-streams
`self.fetch_head` / `self.fetch_tail`
(`fetch` is `while True: yield from dataloader`, so a position is an index
into the infinite repetition of the epoch's batches). -/
structure FetchState where
  step : ℕ
  headPos : ℕ
  tailPos : ℕ
deriving DecidableEq, Repr

instance : DecidableEq (List (List Triple × Mode) × FetchState) := fun a b =>
  instDecidableEqProd a b

/-- The batch at position `pos` of the infinite stream
`while True: yield from dataloader`: the epoch batches repeated
cyclically.  `none` models an empty dataloader, from which no batch is
ever produced. -/
def batchAt (train : List Triple) (b : ℕ) (pos : ℕ) : Option (List Triple) :=
  if h : (chunks b train).length = 0 then none
  else some ((chunks b train).get
    ⟨pos % (chunks b train).length, Nat.mod_lt _ (Nat.pos_of_ne_zero h)⟩)

/-- `FetchDataset.__next__`: increment `self.step`; on an even step pull
from the head stream, on an odd step pull from the tail stream. -/
def fetchNext (train : List Triple) (b : ℕ) (s : FetchState) :
    Option ((List Triple × Mode) × FetchState) :=
  let step := s.step + 1
  if step % 2 = 0 then
    (batchAt train b s.headPos).map fun batch =>
      ((batch, Mode.headBatch), ⟨step, s.headPos + 1, s.tailPos⟩)
  else
    (batchAt train b s.tailPos).map fun batch =>
      ((batch, Mode.tailBatch), ⟨step, s.headPos, s.tailPos + 1⟩)

/-- `N` successive pulls from the stream, from state `s`; `none` as soon
as one pull produces no batch. -/
def fetchPulls (train : List Triple) (b : ℕ) (s : FetchState) :
    ℕ → Option (List (List Triple × Mode) × FetchState)
  | 0 => some ([], s)
  | n + 1 =>
    match fetchNext train b s with
    | none => none
    | some (batch, s') =>
      (fetchPulls train b s' n).map fun p => (batch :: p.1, p.2)

/-- The initial state of a freshly constructed `FetchDataset`
(`self.step = 0`, both sub-streams at their first batch). -/
def fetchInit : FetchState := ⟨0, 0, 0⟩

/-- The state reached after `m` pulls from `fetchInit`: the step counter
is `m`, the head stream has served `m / 2` batches and the tail stream
`(m + 1) / 2` batches. -/
def canonState (m : ℕ) : FetchState := ⟨m, m / 2, (m + 1) / 2⟩

/-- The batch and mode served by the pull that raises the step counter
from `m` to `m + 1`. -/
def pullResult (train : List Triple) (b m : ℕ) : Option (List Triple × Mode) :=
  (batchAt train b (m / 2)).map fun batch =>
    (batch, if (m + 1) % 2 = 0 then Mode.headBatch else Mode.tailBatch)

theorem canonState_zero : canonState 0 = fetchInit := rfl

/-- One step of the closed form: from the canonical state after `m`
pulls, the next pull serves `pullResult m` and leads to the canonical
state after `m + 1` pulls. -/
theorem fetchNext_canon (train : List Triple) (b m : ℕ) :
    fetchNext train b (canonState m) =
      (pullResult train b m).map fun r => (r, canonState (m + 1)) := by
  rcases Nat.even_or_odd m with ⟨k, hk⟩ | ⟨k, hk⟩
  · subst hk
    have h1 : (k + k + 1) % 2 = 1 := by omega
    have h2 : (k + k) / 2 = k := by omega
    have h3 : (k + k + 1) / 2 = k := by omega
    have h4 : (k + k + 1 + 1) / 2 = k + 1 := by omega
    cases hb : batchAt train b k with
    | none => simp [fetchNext, canonState, pullResult, h1, h2, h3, h4, hb]
    | some c => simp [fetchNext, canonState, pullResult, h1, h2, h3, h4, hb]
  · subst hk
    have h1 : (2 * k + 1 + 1) % 2 = 0 := by omega
    have h2 : (2 * k + 1) / 2 = k := by omega
    have h3 : (2 * k + 1 + 1) / 2 = k + 1 := by omega
    have h4 : (2 * k + 1 + 1 + 1) / 2 = k + 1 := by omega
    cases hb : batchAt train b k with
    | none => simp [fetchNext, canonState, pullResult, h1, h2, h3, h4, hb]
    | some c => simp [fetchNext, canonState, pullResult, h1, h2, h3, h4, hb]

/-- Closed form of `N` pulls from the canonical state after `m` pulls,
when the training set is nonempty: every pull succeeds, the results are
`pullResult m, …, pullResult (m + N - 1)`, and the stream ends in the
canonical state after `m + N` pulls. -/
theorem fetchPulls_canon (train : List Triple) (b : ℕ) (htrain : train ≠ []) :
    ∀ N m, fetchPulls train b (canonState m) N =
      some (((List.range N).map fun i => ((pullResult train b (m + i)).getD ([], Mode.headBatch))),
        canonState (m + N)) := by
  intro N
  induction N with
  | zero => intro m; simp [fetchPulls]
  | succ n ih =>
    intro m
    have hcs : (chunks b train).length ≠ 0 := fun h =>
      chunks_ne_nil b train htrain (List.length_eq_zero.1 h)
    have hsome : (batchAt train b (m / 2)).isSome := by
      rw [batchAt, dif_neg hcs]
      rfl
    obtain ⟨c, hc⟩ := Option.isSome_iff_exists.1 hsome
    have hpr : pullResult train b m =
        some (c, if (m + 1) % 2 = 0 then Mode.headBatch else Mode.tailBatch) := by
      rw [pullResult, hc]
      rfl
    rw [fetchPulls, fetchNext_canon, hpr]
    simp only [Option.map_some']
    rw [ih (m + 1)]
    simp only [Option.map_some', Option.some.injEq, Prod.mk.injEq]
    constructor
    · rw [List.range_succ_eq_map]
      simp only [List.map_cons, List.map_map]
      refine List.cons_eq_cons.2 ⟨by simp only [Nat.add_zero, hpr, Option.getD_some], ?_⟩
      refine List.map_congr_left fun i _ => ?_
      simp only [Function.comp_apply, Nat.succ_eq_add_one]
      rw [Nat.add_assoc, Nat.add_comm 1 i]
    · rw [Nat.add_assoc, Nat.add_comm 1 n]

/-- For a nonempty training set every stream position holds a batch,
namely the epoch chunk at the position taken cyclically. -/
theorem batchAt_of_ne_nil (train : List Triple) (b pos : ℕ) (h : train ≠ []) :
    batchAt train b pos =
      some ((chunks b train).getD (pos % (chunks b train).length) []) := by
  have hcs : (chunks b train).length ≠ 0 := fun hl =>
    chunks_ne_nil b train h (List.length_eq_zero.1 hl)
  rw [batchAt, dif_neg hcs,
    List.getD_eq_getElem _ _ (Nat.mod_lt _ (Nat.pos_of_ne_zero hcs))]
  rfl

/-- Closed form of a single pull for a nonempty training set. -/
theorem pullResult_of_ne_nil (train : List Triple) (b m : ℕ) (h : train ≠ []) :
    pullResult train b m =
      some ((chunks b train).getD ((m / 2) % (chunks b train).length) [],
        if (m + 1) % 2 = 0 then Mode.headBatch else Mode.tailBatch) := by
  rw [pullResult, batchAt_of_ne_nil train b _ h]
  rfl

/-- C4: for every sequence of `N` pulls from `FetchDataset.__next__`, the
produced corruption modes strictly alternate between head-batch and
tail-batch; odd-numbered pulls (1-indexed) yield a tail-batch and
even-numbered pulls yield a head-batch. -/
theorem claim_C4_mode_alternation (train : List Triple) (b N : ℕ) (htrain : train ≠ []) :
    ∃ res, fetchPulls train b fetchInit N = some res ∧
      res.1.length = N ∧
      (∀ i, i < N →
        (res.1.getD i ([], Mode.headBatch)).2 =
          if (i + 1) % 2 = 0 then Mode.headBatch else Mode.tailBatch) ∧
      (∀ i, i + 1 < N →
        (res.1.getD (i + 1) ([], Mode.headBatch)).2 ≠
          (res.1.getD i ([], Mode.headBatch)).2) := by
  have hrun := fetchPulls_canon train b htrain N 0
  rw [canonState_zero] at hrun
  refine ⟨_, hrun, by simp, ?_, ?_⟩
  · intro i hi
    rw [List.getD_eq_getElem _ _ (by simpa using hi)]
    simp only [List.getElem_map, List.getElem_range]
    rw [pullResult_of_ne_nil train b _ htrain, Nat.zero_add]
    rfl
  · intro i hi
    rw [List.getD_eq_getElem _ _ (by simpa using hi),
      List.getD_eq_getElem _ _ (by simp; omega)]
    simp only [List.getElem_map, List.getElem_range]
    rw [pullResult_of_ne_nil train b _ htrain, pullResult_of_ne_nil train b _ htrain,
      Nat.zero_add, Nat.zero_add]
    rcases Nat.even_or_odd i with ⟨k, hk⟩ | ⟨k, hk⟩ <;> subst hk
    · have h1 : (k + k + 1) % 2 = 1 := by omega
      have h2 : (k + k + 1 + 1) % 2 = 0 := by omega
      simp [h1, h2]
    · have h1 : (2 * k + 1 + 1) % 2 = 0 := by omega
      have h2 : (2 * k + 1 + 1 + 1) % 2 = 1 := by omega
      simp [h1, h2]

/-- C4 witness: three pulls over the doctest training pair alternate
tail-batch, head-batch, tail-batch. -/
theorem claim_C4_mode_alternation_witness :
    (fetchPulls [(1, 1, 2), (2, 2, 3)] 1 fetchInit 3 =
      some ([([(1, 1, 2)], Mode.tailBatch), ([(1, 1, 2)], Mode.headBatch),
        ([(2, 2, 3)], Mode.tailBatch)], ⟨3, 1, 2⟩)) ∧
    (∃ res, fetchPulls [(1, 1, 2), (2, 2, 3)] 1 fetchInit 3 = some res ∧
      res.1.length = 3 ∧
      (∀ i, i < 3 →
        (res.1.getD i ([], Mode.headBatch)).2 =
          if (i + 1) % 2 = 0 then Mode.headBatch else Mode.tailBatch) ∧
      (∀ i, i + 1 < 3 →
        (res.1.getD (i + 1) ([], Mode.headBatch)).2 ≠
          (res.1.getD i ([], Mode.headBatch)).2)) :=
  ⟨by decide, claim_C4_mode_alternation [(1, 1, 2), (2, 2, 3)] 1 3 (by decide)⟩

/-- C5: pulling from the batch stream never fails with an end-of-data
error: with a nonempty training set every one of `N` pulls yields a
batch, the batch of pull `i` is the epoch chunk at position
`(i / 2) mod (number of epoch chunks)` — so when an epoch is exhausted
the stream wraps around to the first chunk seamlessly — every served
batch is nonempty, and the epoch chunks concatenate back to the whole
training set, so no triple is lost and no batch is truncated by the
wrap. -/
theorem claim_C5_infinite_wraparound (train : List Triple) (b N : ℕ) (htrain : train ≠ []) :
    ∃ res, fetchPulls train b fetchInit N = some res ∧
      res.1.length = N ∧
      (∀ i, i < N →
        (res.1.getD i ([], Mode.headBatch)).1 =
          (chunks b train).getD ((i / 2) % (chunks b train).length) [] ∧
        (res.1.getD i ([], Mode.headBatch)).1 ≠ []) ∧
      (chunks b train).flatten = train := by
  have hrun := fetchPulls_canon train b htrain N 0
  rw [canonState_zero] at hrun
  refine ⟨_, hrun, by simp, ?_, chunks_flatten b train⟩
  intro i hi
  rw [List.getD_eq_getElem _ _ (by simpa using hi)]
  simp only [List.getElem_map, List.getElem_range]
  rw [pullResult_of_ne_nil train b _ htrain, Nat.zero_add]
  have hcs : (chunks b train).length ≠ 0 := fun hl =>
    chunks_ne_nil b train htrain (List.length_eq_zero.1 hl)
  have hlt : (i / 2) % (chunks b train).length < (chunks b train).length :=
    Nat.mod_lt _ (Nat.pos_of_ne_zero hcs)
  refine ⟨rfl, ?_⟩
  rw [List.getD_eq_getElem _ _ hlt]
  exact chunks_mem_ne_nil b train _ (List.getElem_mem hlt)

/-- C5 witness: five pulls over a two-triple training set with batch
size one succeed and wrap around to the first triple on the fifth pull. -/
theorem claim_C5_infinite_wraparound_witness :
    (fetchPulls [(1, 1, 2), (2, 2, 3)] 1 fetchInit 5 =
      some ([([(1, 1, 2)], Mode.tailBatch), ([(1, 1, 2)], Mode.headBatch),
        ([(2, 2, 3)], Mode.tailBatch), ([(2, 2, 3)], Mode.headBatch),
        ([(1, 1, 2)], Mode.tailBatch)], ⟨5, 2, 3⟩)) ∧
    (∃ res, fetchPulls [(1, 1, 2), (2, 2, 3)] 1 fetchInit 5 = some res ∧
      res.1.length = 5 ∧
      (∀ i, i < 5 →
        (res.1.getD i ([], Mode.headBatch)).1 =
          (chunks 1 [(1, 1, 2), (2, 2, 3)]).getD
            ((i / 2) % (chunks 1 [(1, 1, 2), (2, 2, 3)]).length) [] ∧
        (res.1.getD i ([], Mode.headBatch)).1 ≠ []) ∧
      (chunks 1 [(1, 1, 2), (2, 2, 3)]).flatten = [(1, 1, 2), (2, 2, 3)]) :=
  ⟨by decide, claim_C5_infinite_wraparound [(1, 1, 2), (2, 2, 3)] 1 5 (by decide)⟩

/-! Filtered evaluator (`src/kdmkb/evaluation/evaluation.py`).  Scores are
rationals; a batch row carries the per-candidate post-bias scores
(`model(negative_sample) + filter_bias`) together with the true answer's
id (`positive_arg`). -/

/-- The running mean of the `creme.stats.Mean` accumulators: `update`
increments the count and moves the mean by `(x - mean) / n`; `get`
returns the current mean (`0` before any update). -/
structure Mean where
  n : ℕ
  mean : ℚ
deriving DecidableEq, Repr

def Mean.update (m : Mean) (x : ℚ) : Mean :=
  ⟨m.n + 1, m.mean + (x - m.mean) / (m.n + 1)⟩

def Mean.get (m : Mean) : ℚ := m.mean

def initMean : Mean := ⟨0, 0⟩

/-- The five metric accumulators allocated once at the top of
`Evaluation.eval`. -/
structure Metrics where
  mrr : Mean
  mr : Mean
  hits1 : Mean
  hits3 : Mean
  hits10 : Mean
deriving DecidableEq, Repr

def initMetrics : Metrics := ⟨initMean, initMean, initMean, initMean, initMean⟩

/-- The metric updates performed for one evaluated row of rank
`ranking`: `MRR += 1/ranking`, `MR += ranking`,
`HITS@k += 1 if ranking <= k else 0`. -/
def updateMetrics (ms : Metrics) (ranking : ℕ) : Metrics :=
  ⟨ms.mrr.update (1 / (ranking : ℚ)),
   ms.mr.update (ranking : ℚ),
   ms.hits1.update (if ranking ≤ 1 then 1 else 0),
   ms.hits3.update (if ranking ≤ 3 then 1 else 0),
   ms.hits10.update (if ranking ≤ 10 then 1 else 0)⟩

/-- The metric state after a sequence of ranks has been fed into one
shared set of accumulators. -/
def runMetrics (ranks : List ℕ) : Metrics := ranks.foldl updateMetrics initMetrics

/-- `round(metric.get(), 4)` applied to the reported value. -/
def round4 (q : ℚ) : ℚ := (round (q * 10000) : ℤ) / 10000

/-- Score of the candidate with id `i`: candidates of a row are the full
id range in order, so candidate ids coincide with tensor columns. -/
def scoreAt (scores : List ℚ) (i : ℕ) : ℚ := scores.getD i 0

/-- The comparison realised by `torch.argsort(score, dim=1,
descending=True)` on candidate columns. -/
def descLe (scores : List ℚ) (i j : ℕ) : Prop := scoreAt scores j ≤ scoreAt scores i

instance (scores : List ℚ) : DecidableRel (descLe scores) := fun i j =>
  inferInstanceAs (Decidable (scoreAt scores j ≤ scoreAt scores i))

instance (scores : List ℚ) : IsTotal ℕ (descLe scores) :=
  ⟨fun _ _ => le_total _ _⟩

instance (scores : List ℚ) : IsTrans ℕ (descLe scores) :=
  ⟨fun _ _ _ h1 h2 => le_trans h2 h1⟩

/-- `torch.argsort(score, dim=1, descending=True)` for one row: the
candidate columns sorted by descending score. -/
def argsortDesc (scores : List ℚ) : List ℕ :=
  List.insertionSort (descLe scores) (List.range scores.length)

/-- One row of the inner loop of `Evaluation.compute_score`:
`(argsort[i, :] == positive_arg[i]).nonzero()`, `assert` that it has
exactly one entry, then `ranking = 1 + ranking.item()`.  `none` is the
`AssertionError`. -/
def ranking (scores : List ℚ) (trueId : ℕ) : Option ℕ :=
  if (argsortDesc scores).count trueId = 1 then
    some (List.indexOf trueId (argsortDesc scores) + 1)
  else none

/-- Index of the marked occurrence in a split list whose left part does
not contain the value. -/
theorem indexOf_append_cons_self {α : Type} [DecidableEq α] (t : α) :
    ∀ (l₁ l₂ : List α), t ∉ l₁ → List.indexOf t (l₁ ++ t :: l₂) = l₁.length
  | [], _, _ => by simp
  | a :: l₁, l₂, h => by
    have ha : a ≠ t := fun e => h (e ▸ List.mem_cons_self a l₁)
    rw [List.cons_append, List.indexOf_cons_ne _ ha,
      indexOf_append_cons_self t l₁ l₂ fun hm => h (List.mem_cons_of_mem a hm)]
    rfl

/-- Distinct columns of a row with pairwise-distinct scores hold
distinct scores. -/
theorem scoreAt_ne_of_pairwise (scores : List ℚ) (hd : scores.Pairwise (· ≠ ·))
    {i j : ℕ} (hi : i < scores.length) (hj : j < scores.length) (hij : i ≠ j) :
    scoreAt scores i ≠ scoreAt scores j := by
  rw [scoreAt, scoreAt, List.getD_eq_getElem _ _ hi, List.getD_eq_getElem _ _ hj]
  rcases Nat.lt_or_ge i j with h | h
  · exact List.pairwise_iff_getElem.1 hd i j hi hj h
  · exact (List.pairwise_iff_getElem.1 hd j i hj hi
      (lt_of_le_of_ne h (Ne.symm hij))).symm

/-- C1: for every evaluated row, the computed rank is the 1-indexed
position of the true answer's id among the candidates sorted by biased
score in descending order — equivalently (for pairwise-distinct
post-bias scores) one plus the number of candidates whose biased score
strictly exceeds the true answer's. -/
theorem claim_C1_rank_position (scores : List ℚ) (t : ℕ)
    (ht : t < scores.length) (hd : scores.Pairwise (· ≠ ·)) :
    ranking scores t =
      some (((List.range scores.length).filter
        (fun j => scoreAt scores t < scoreAt scores j)).length + 1) := by
  have hperm : List.Perm (argsortDesc scores) (List.range scores.length) :=
    List.perm_insertionSort _ _
  have hnodup : (argsortDesc scores).Nodup := hperm.nodup_iff.2 (List.nodup_range _)
  have hmem : t ∈ argsortDesc scores := hperm.mem_iff.2 (List.mem_range.2 ht)
  have hsorted : List.Sorted (descLe scores) (argsortDesc scores) :=
    List.sorted_insertionSort _ _
  have hcount : (argsortDesc scores).count t = 1 :=
    List.count_eq_one_of_mem hnodup hmem
  have hbound : ∀ j ∈ argsortDesc scores, j < scores.length := fun j hj =>
    List.mem_range.1 (hperm.subset hj)
  obtain ⟨l₁, l₂, heq⟩ := List.append_of_mem hmem
  have hn := heq ▸ hnodup
  rw [List.nodup_append] at hn
  have htl₁ : t ∉ l₁ := fun hin => hn.2.2 hin (List.mem_cons_self t l₂)
  have hs := heq ▸ hsorted
  rw [List.Sorted, List.pairwise_append] at hs
  have hgt : ∀ x ∈ l₁, scoreAt scores t < scoreAt scores x := by
    intro x hx
    have hxt : x ≠ t := fun e => htl₁ (e ▸ hx)
    have hxa : x ∈ argsortDesc scores := heq ▸ List.mem_append_left _ hx
    refine lt_of_le_of_ne (hs.2.2 x hx t (List.mem_cons_self t l₂)) ?_
    exact Ne.symm (scoreAt_ne_of_pairwise scores hd (hbound x hxa) ht hxt)
  have hle : ∀ y ∈ t :: l₂, ¬ scoreAt scores t < scoreAt scores y := by
    intro y hy
    rcases List.mem_cons.1 hy with h | h
    · subst h; exact lt_irrefl _
    · exact not_lt.2 ((List.pairwise_cons.1 hs.2.1).1 y h)
  have hfilter : ((List.range scores.length).filter
      (fun j => scoreAt scores t < scoreAt scores j)).length = l₁.length := by
    rw [← (hperm.filter _).length_eq, heq, List.filter_append,
      List.filter_eq_self.2 (fun x hx => decide_eq_true (hgt x hx)),
      List.filter_eq_nil_iff.2 (fun y hy => by simpa using hle y hy),
      List.append_nil]
  rw [ranking, if_pos hcount, heq, indexOf_append_cons_self t l₁ l₂ htl₁, hfilter]

/-- C1 witness: for post-bias scores `[5, 9, 1, 3]` over candidates
`[0, 1, 2, 3]` with true answer id `1`, the rank is `1`, so the `MRR`
update of that row is `1` and its `HITS@1` update is `1`. -/
theorem claim_C1_rank_position_witness :
    ranking [5, 9, 1, 3] 1 = some 1 ∧
    (updateMetrics initMetrics 1).mrr.get = 1 ∧
    (updateMetrics initMetrics 1).hits1.get = 1 := by
  have h := claim_C1_rank_position [5, 9, 1, 3] 1 (by decide) (by decide)
  rw [h]
  refine ⟨by decide, ?_, ?_⟩ <;>
    · simp only [updateMetrics, initMetrics, initMean, Mean.update, Mean.get]
      norm_num

/-- C8: the true answer appears exactly once in the ranked candidate
list exactly when its id lies in the candidate range (which the full id
range guarantees); whenever it is absent or duplicated the evaluation of
the row stops with an assertion failure instead of producing a rank, and
a rank is produced in every other case. -/
theorem claim_C8_assert_exactly_once (scores : List ℚ) (t : ℕ) :
    ((argsortDesc scores).count t = 1 ↔ t < scores.length) ∧
    ((ranking scores t).isSome ↔ (argsortDesc scores).count t = 1) ∧
    (ranking scores t = none ↔ (argsortDesc scores).count t ≠ 1) := by
  have hperm : List.Perm (argsortDesc scores) (List.range scores.length) :=
    List.perm_insertionSort _ _
  have hcnt : (argsortDesc scores).count t = (List.range scores.length).count t :=
    hperm.count_eq t
  refine ⟨?_, ?_, ?_⟩
  · rw [hcnt]
    constructor
    · intro h
      by_contra hlt
      rw [List.count_eq_zero_of_not_mem (by simpa using hlt)] at h
      exact one_ne_zero h.symm
    · intro h
      exact List.count_eq_one_of_mem (List.nodup_range _) (List.mem_range.2 h)
  · rw [ranking]
    by_cases hc : (argsortDesc scores).count t = 1 <;> simp [hc]
  · rw [ranking]
    by_cases hc : (argsortDesc scores).count t = 1 <;> simp [hc]

/-- A batch row of the evaluation loop: the per-candidate post-bias
scores (`model(negative_sample) + filter_bias`) and the true answer's id
(`positive_arg`). -/
abbrev Row := List ℚ × ℕ

/-- `Evaluation.compute_score`: fold the rows of one test stream into the
shared metric accumulators; `none` is the `AssertionError` of a row whose
true answer is not found exactly once. -/
def computeScore (testSet : List Row) (ms : Metrics) : Option Metrics :=
  testSet.foldlM (fun acc row => (ranking row.1 row.2).map (updateMetrics acc)) ms

/-- The true-answer column of a row: `positive_sample[:, 0]` in
head-batch mode and `positive_sample[:, 2]` in tail-batch mode. -/
def positiveArg (mode : Mode) (tr : Triple) : ℕ :=
  match mode with
  | Mode.headBatch => tr.1
  | Mode.tailBatch => tr.2.2

/-- The rows served by the test loader over `dataset` in one mode: one
row per triple, in order, with post-bias scores supplied by the external
scoring model `score`. -/
def entityRows (score : Mode → Triple → List ℚ) (mode : Mode)
    (dataset : List Triple) : List Row :=
  dataset.map fun tr => (score mode tr, positiveArg mode tr)

/-- `Evaluation.get_entity_stream`: the head-batch loader followed by
the tail-batch loader, both over the same `dataset`. -/
def getEntityStream (score : Mode → Triple → List ℚ)
    (dataset : List Triple) : List (List Row) :=
  [entityRows score Mode.headBatch dataset, entityRows score Mode.tailBatch dataset]

/-- `Evaluation.eval`: one shared metric set threaded through every
stream of `get_entity_stream`. -/
def evalEntity (score : Mode → Triple → List ℚ)
    (dataset : List Triple) : Option Metrics :=
  (getEntityStream score dataset).foldlM
    (fun ms testSet => computeScore testSet ms) initMetrics

/-- The ranks computed for the rows of one mode, in order. -/
def modeRanks (score : Mode → Triple → List ℚ) (mode : Mode)
    (dataset : List Triple) : List ℕ :=
  (entityRows score mode dataset).filterMap fun row => ranking row.1 row.2

/-- One incremental `Mean.update` multiplies out to a sum update. -/
theorem Mean.update_mean_mul (m : Mean) (x : ℚ) :
    (m.update x).mean * ((m.n : ℚ) + 1) = m.mean * m.n + x := by
  have hne : ((m.n : ℚ) + 1) ≠ 0 := by positivity
  rw [Mean.update]
  field_simp
  ring

/-- The incremental mean accumulator really tracks count and sum. -/
theorem Mean.foldl_spec : ∀ (xs : List ℚ) (m : Mean),
    (xs.foldl Mean.update m).n = m.n + xs.length ∧
    (xs.foldl Mean.update m).mean * ((m.n : ℚ) + xs.length) =
      m.mean * m.n + xs.sum
  | [], m => by simp
  | x :: xs, m => by
    obtain ⟨h1, h2⟩ := Mean.foldl_spec xs (m.update x)
    have hn : (m.update x).n = m.n + 1 := rfl
    constructor
    · rw [List.foldl_cons, h1, hn, List.length_cons]
      omega
    · rw [List.foldl_cons, List.length_cons, List.sum_cons]
      have hupd := Mean.update_mean_mul m x
      push_cast
      have harith : ((m.n : ℚ) + ((xs.length : ℚ) + 1)) = ((m.update x).n : ℚ) + xs.length := by
        rw [hn]
        push_cast
        ring
      rw [harith, h2]
      have hcast : (((m.update x).n : ℕ) : ℚ) = (m.n : ℚ) + 1 := by
        rw [hn]
        push_cast
        ring
      rw [hcast]
      linarith

/-- Each metric accumulator of `updateMetrics` evolves by plain
`Mean.update` on a per-rank value. -/
theorem foldl_updateMetrics_sel (sel : Metrics → Mean) (g : ℕ → ℚ)
    (hsel : ∀ ms r, sel (updateMetrics ms r) = (sel ms).update (g r)) :
    ∀ (ranks : List ℕ) (ms : Metrics),
      sel (ranks.foldl updateMetrics ms) = (ranks.map g).foldl Mean.update (sel ms)
  | [], _ => rfl
  | r :: ranks, ms => by
    rw [List.foldl_cons, List.map_cons, List.foldl_cons, ← hsel,
      foldl_updateMetrics_sel sel g hsel ranks _]

/-- The value of one accumulator of `runMetrics` as an arithmetic mean. -/
theorem runMetrics_sel_get (sel : Metrics → Mean) (g : ℕ → ℚ)
    (hsel : ∀ ms r, sel (updateMetrics ms r) = (sel ms).update (g r))
    (hinit : sel initMetrics = initMean)
    (ranks : List ℕ) (h : ranks ≠ []) :
    (sel (runMetrics ranks)).get = (ranks.map g).sum / ranks.length := by
  have hfold := foldl_updateMetrics_sel sel g hsel ranks initMetrics
  rw [hinit] at hfold
  obtain ⟨-, hm⟩ := Mean.foldl_spec (ranks.map g) initMean
  have hlen0 : ((ranks.length : ℚ)) ≠ 0 :=
    Nat.cast_ne_zero.2 fun hl => h (List.length_eq_zero.1 hl)
  rw [runMetrics, hfold, Mean.get, eq_div_iff hlen0]
  have h0n : ((initMean.n : ℕ) : ℚ) = 0 := rfl
  have h0m : initMean.mean = 0 := rfl
  rw [h0n, h0m, List.length_map, zero_add, zero_mul, zero_add] at hm
  exact hm

/-- C2: the reported metrics are running means over all evaluated
triples of `1/rank` (MRR), `rank` (MR) and the indicator `rank ≤ k`
(HITS@k for k in 1, 3, 10). -/
theorem claim_C2_metrics_running_means (ranks : List ℕ) (h : ranks ≠ []) :
    (runMetrics ranks).mrr.get =
      (ranks.map fun (r : ℕ) => 1 / (r : ℚ)).sum / ranks.length ∧
    (runMetrics ranks).mr.get =
      (ranks.map fun (r : ℕ) => (r : ℚ)).sum / ranks.length ∧
    (runMetrics ranks).hits1.get =
      (ranks.map fun (r : ℕ) => if r ≤ 1 then (1 : ℚ) else 0).sum / ranks.length ∧
    (runMetrics ranks).hits3.get =
      (ranks.map fun (r : ℕ) => if r ≤ 3 then (1 : ℚ) else 0).sum / ranks.length ∧
    (runMetrics ranks).hits10.get =
      (ranks.map fun (r : ℕ) => if r ≤ 10 then (1 : ℚ) else 0).sum / ranks.length :=
  ⟨runMetrics_sel_get Metrics.mrr _ (fun _ _ => rfl) rfl ranks h,
   runMetrics_sel_get Metrics.mr _ (fun _ _ => rfl) rfl ranks h,
   runMetrics_sel_get Metrics.hits1 _ (fun _ _ => rfl) rfl ranks h,
   runMetrics_sel_get Metrics.hits3 _ (fun _ _ => rfl) rfl ranks h,
   runMetrics_sel_get Metrics.hits10 _ (fun _ _ => rfl) rfl ranks h⟩

/-- C2 witness: for exactly two evaluated triples with ranks `1` and
`4`, the returned (4-decimal rounded) MRR is `0.625`, MR is `2.5` and
HITS@3 is `0.5`. -/
theorem claim_C2_metrics_running_means_witness :
    round4 ((runMetrics [1, 4]).mrr.get) = 625 / 1000 ∧
    round4 ((runMetrics [1, 4]).mr.get) = 25 / 10 ∧
    round4 ((runMetrics [1, 4]).hits3.get) = 5 / 10 := by
  obtain ⟨h1, h2, -, h3, -⟩ := claim_C2_metrics_running_means [1, 4] (by decide)
  rw [round4, round4, round4, h1, h2, h3]
  norm_num [round_eq]

/-- `compute_score` over rows that all pass the assertion folds their
ranks, in order, into the shared accumulators. -/
theorem computeScore_of_forall_isSome :
    ∀ (rows : List Row) (ms : Metrics),
      (∀ row ∈ rows, (ranking row.1 row.2).isSome) →
      computeScore rows ms =
        some ((rows.filterMap fun row => ranking row.1 row.2).foldl updateMetrics ms)
  | [], _, _ => rfl
  | row :: rows, ms, h => by
    obtain ⟨r, hr⟩ := Option.isSome_iff_exists.1 (h row (List.mem_cons_self _ _))
    have ih := computeScore_of_forall_isSome rows (updateMetrics ms r)
      fun x hx => h x (List.mem_cons_of_mem _ hx)
    rw [computeScore] at ih ⊢
    rw [List.foldlM_cons, hr]
    simp only [List.filterMap_cons, hr, List.foldl_cons]
    rw [← ih]
    rfl

/-- Rows that all pass the assertion contribute exactly one rank each. -/
theorem filterMap_ranking_length :
    ∀ (rows : List Row),
      (∀ row ∈ rows, (ranking row.1 row.2).isSome) →
      (rows.filterMap fun row => ranking row.1 row.2).length = rows.length
  | [], _ => rfl
  | row :: rows, h => by
    obtain ⟨r, hr⟩ := Option.isSome_iff_exists.1 (h row (List.mem_cons_self _ _))
    simp only [List.filterMap_cons, hr, List.length_cons]
    rw [filterMap_ranking_length rows fun x hx => h x (List.mem_cons_of_mem _ hx)]

/-- The count held by every accumulator equals the number of evaluated
rows. -/
theorem runMetrics_mrr_n (ranks : List ℕ) : (runMetrics ranks).mrr.n = ranks.length := by
  have hfold := foldl_updateMetrics_sel Metrics.mrr (fun (r : ℕ) => 1 / (r : ℚ))
    (fun _ _ => rfl) ranks initMetrics
  have hinit : initMetrics.mrr = initMean := rfl
  rw [hinit] at hfold
  rw [runMetrics, hfold]
  obtain ⟨hn, -⟩ := Mean.foldl_spec (ranks.map fun (r : ℕ) => 1 / (r : ℚ)) initMean
  rw [hn, List.length_map]
  simp [initMean]

/-- C3: `Evaluation.eval` runs the head-batch pass and the tail-batch
pass over the same test set, one row per triple in each pass, and both
passes feed the single shared metric set: the result is `runMetrics` of
the head-pass ranks followed by the tail-pass ranks, each pass
contributes exactly `|dataset|` rank updates, and the shared MRR
accumulator ends with count `2 * |dataset|`. -/
theorem claim_C3_two_passes_shared_metrics (score : Mode → Triple → List ℚ)
    (dataset : List Triple)
    (hhead : ∀ row ∈ entityRows score Mode.headBatch dataset,
      (ranking row.1 row.2).isSome)
    (htail : ∀ row ∈ entityRows score Mode.tailBatch dataset,
      (ranking row.1 row.2).isSome) :
    evalEntity score dataset =
      some (runMetrics (modeRanks score Mode.headBatch dataset ++
        modeRanks score Mode.tailBatch dataset)) ∧
    (modeRanks score Mode.headBatch dataset).length = dataset.length ∧
    (modeRanks score Mode.tailBatch dataset).length = dataset.length ∧
    (∀ ms, evalEntity score dataset = some ms → ms.mrr.n = 2 * dataset.length) := by
  have hlenH : (modeRanks score Mode.headBatch dataset).length = dataset.length := by
    rw [modeRanks, filterMap_ranking_length _ hhead, entityRows, List.length_map]
  have hlenT : (modeRanks score Mode.tailBatch dataset).length = dataset.length := by
    rw [modeRanks, filterMap_ranking_length _ htail, entityRows, List.length_map]
  have heval : evalEntity score dataset =
      some (runMetrics (modeRanks score Mode.headBatch dataset ++
        modeRanks score Mode.tailBatch dataset)) := by
    rw [evalEntity, getEntityStream, List.foldlM_cons,
      computeScore_of_forall_isSome _ _ hhead]
    show (computeScore (entityRows score Mode.tailBatch dataset) _).bind _ = _
    rw [computeScore_of_forall_isSome _ _ htail]
    rw [runMetrics, List.foldl_append]
    rfl
  refine ⟨heval, hlenH, hlenT, fun ms hms => ?_⟩
  rw [heval] at hms
  cases hms
  rw [runMetrics_mrr_n, List.length_append, hlenH, hlenT]
  omega

/-- C3 witness: a one-triple test set under a constant two-candidate
scoring model is evaluated once per direction with the shared
accumulators ending at count 2. -/
theorem claim_C3_two_passes_shared_metrics_witness :
    (evalEntity (fun _ _ => [5, 9]) [(0, 0, 1)] =
      some (runMetrics (modeRanks (fun _ _ => [5, 9]) Mode.headBatch [(0, 0, 1)] ++
        modeRanks (fun _ _ => [5, 9]) Mode.tailBatch [(0, 0, 1)]))) ∧
    (modeRanks (fun _ _ => [5, 9]) Mode.headBatch [(0, 0, 1)]).length = 1 ∧
    (modeRanks (fun _ _ => [5, 9]) Mode.tailBatch [(0, 0, 1)]).length = 1 ∧
    (∀ ms, evalEntity (fun _ _ => [5, 9]) [(0, 0, 1)] = some ms →
      ms.mrr.n = 2 * 1) := by
  have h := claim_C3_two_passes_shared_metrics (fun _ _ => [5, 9]) [(0, 0, 1)]
    (by decide) (by decide)
  simpa using h

/-! Triple index construction (`src/kdmkr/stream/fetch_dataset.py`,
`FetchDataset.__init__`). -/

/-- `self.n_entity`: the number of distinct ids occurring as a head or a
tail across the train, valid and test triples
(`len(set(chain.from_iterable([[head, tail] for head, _, tail in chain(train, valid, test)])))`). -/
def n_entity (train valid test : List Triple) : ℕ :=
  (((train ++ valid ++ test).flatMap fun tr => [tr.1, tr.2.2]).dedup).length

/-- `self.n_relation`: the number of distinct relation ids occurring
across the train, valid and test triples. -/
def n_relation (train valid test : List Triple) : ℕ :=
  (((train ++ valid ++ test).map fun tr => tr.2.1).dedup).length

/-- Modelled from the spec: §4.1 states that the index computes
`n_entity` as the cardinality of the supplied entity id table.  The
constructor `FetchDataset.__init__` under `src/kdmkr` takes no id-table
argument at all, so the claimed computation is expressed here over an
explicit table for comparison with `n_entity` above. -/
def n_entity_spec (entities : List (String × ℕ)) : ℕ := entities.length

/-- C6 counterexample: for the training set `[(0,0,1)]` and the minimal
entity table `{a:0, b:1, c:2}` (entity `c` has zero occurrences), the
constructor computes `n_entity = 2`, not the table cardinality `3`; and
on the module's own doctest data `n_entity = 5` even though entity id
`5` occurs, so the ids are not the dense range `[0, n_entity)` of a
table. -/
theorem claim_C6_counterexample :
    n_entity [(0, 0, 1)] [] [] = 2 ∧
    n_entity_spec [("a", 0), ("b", 1), ("c", 2)] = 3 ∧
    n_entity [(0, 0, 1)] [] [] ≠ n_entity_spec [("a", 0), ("b", 1), ("c", 2)] ∧
    n_entity [(1, 1, 2), (2, 2, 3)] [] [(1, 2, 2), (4, 3, 5)] = 5 ∧
    5 ∈ (([(1, 1, 2), (2, 2, 3)] ++ [] ++ [(1, 2, 2), (4, 3, 5)] :
      List Triple).flatMap fun tr => [tr.1, tr.2.2]) := by
  decide

/-- C6 amended: the constructor receives no id tables; `n_entity` and
`n_relation` are the cardinalities of the sets of entity ids (heads and
tails) and relation ids occurring across the train, valid and test
triples, so zero-occurrence entities and relations are not counted; on
the doctest data the values are `5` and `3`. -/
theorem claim_C6_sizes_from_triples (train valid test : List Triple) :
    n_entity train valid test =
      ((train ++ valid ++ test).flatMap fun tr => [tr.1, tr.2.2]).toFinset.card ∧
    n_relation train valid test =
      ((train ++ valid ++ test).map fun tr => tr.2.1).toFinset.card ∧
    n_entity [(1, 1, 2), (2, 2, 3)] [] [(1, 2, 2), (4, 3, 5)] = 5 ∧
    n_relation [(1, 1, 2), (2, 2, 3)] [] [(1, 2, 2), (4, 3, 5)] = 3 := by
  refine ⟨?_, ?_, by decide, by decide⟩ <;> rw [List.card_toFinset] <;> rfl

/-! Subsampling weights (doctest of `src/kdmkr/stream/fetch_dataset.py`;
the computing code, `TrainDataset.count_frequency` and
`TrainDataset.__getitem__` in `kdmkr/stream/base.py`, is not among the
sources). -/

/-- A key of the frequency dictionary: `(head, relation)` for
head-relation prefixes and `(tail, -relation-1)` for relation-tail
prefixes (the negative second component keeps the two kinds apart). -/
abbrev ZKey := ℤ × ℤ

/-- Update one key of the frequency dictionary: increment it if present,
otherwise append it holding `start`. -/
def dictBump : List (ZKey × ℕ) → ZKey → ℕ → List (ZKey × ℕ)
  | [], k, start => [(k, start)]
  | (k', v) :: rest, k, start =>
    if k' = k then (k', v + 1) :: rest else (k', v) :: dictBump rest k start

/-- Modelled from the spec: the per-prefix frequency dictionary of the
training stream (`count_frequency` in the missing `kdmkr/stream/base.py`,
RotatE style).  Each triple bumps `(head, relation)` and
`(tail, -relation-1)`; a key's first occurrence stores `start` rather
than `1` — the smoothing offset `start = 4` is forced by the module's
doctest, whose printed weight is `0.3536 = 1/sqrt(8)` for prefixes that
occur exactly once, rather than `1/sqrt(2)`. -/
def count_frequency (triples : List (ℤ × ℤ × ℤ)) (start : ℕ) : List (ZKey × ℕ) :=
  triples.foldl (fun d tr =>
    dictBump (dictBump d (tr.1, tr.2.1) start) (tr.2.2, -tr.2.1 - 1) start) []

/-- Modelled from the spec: the denominator
`count[(head, relation)] + count[(tail, -relation-1)]` of the
subsampling weight `torch.sqrt(1 / w)`; `none` is the `KeyError` for a
prefix absent from the training set. -/
def subFreq (triples : List (ℤ × ℤ × ℤ)) (h r t : ℤ) : Option ℕ :=
  match (count_frequency triples 4).lookup (h, r),
        (count_frequency triples 4).lookup (t, -r - 1) with
  | some a, some b => some (a + b)
  | _, _ => none

/-- How many times one triple bumps a given key. -/
def keyHits (tr : ℤ × ℤ × ℤ) (k : ZKey) : ℕ :=
  (if (tr.1, tr.2.1) = k then 1 else 0) + (if (tr.2.2, -tr.2.1 - 1) = k then 1 else 0)

/-- Total number of bumps of a key over a triple list. -/
def totalHits (triples : List (ℤ × ℤ × ℤ)) (k : ZKey) : ℕ :=
  (triples.map fun tr => keyHits tr k).sum

/-- The dictionary value reached from a previous value after `h` bumps
of the key (`start = 4`). -/
def afterBumps (prev : Option ℕ) (h : ℕ) : Option ℕ :=
  match prev with
  | some v => some (v + h)
  | none => if h = 0 then none else some (3 + h)

theorem afterBumps_zero (prev : Option ℕ) : afterBumps prev 0 = prev := by
  cases prev <;> simp [afterBumps]

theorem lookup_dictBump (k k' : ZKey) :
    ∀ d : List (ZKey × ℕ),
      (dictBump d k' 4).lookup k =
        if k' = k then afterBumps (d.lookup k) 1 else d.lookup k
  | [] => by
    rw [dictBump]
    by_cases h : k' = k
    · subst h
      simp [List.lookup, afterBumps]
    · have hbeq : (k == k') = false := beq_eq_false_iff_ne.2 fun e => h e.symm
      simp [List.lookup, hbeq, h]
  | (k₀, v) :: rest => by
    by_cases h0 : k₀ = k'
    · subst h0
      by_cases h : k₀ = k
      · subst h
        simp [dictBump, afterBumps, List.lookup]
      · rw [dictBump, if_pos rfl]
        have hbeq : (k == k₀) = false := beq_eq_false_iff_ne.2 fun e => h e.symm
        simp [List.lookup, hbeq, fun e : k₀ = k => h e]
    · rw [dictBump, if_neg h0]
      by_cases h : k₀ = k
      · subst h
        simp [List.lookup, if_neg fun e : k' = k₀ => h0 e.symm]
      · have hbeq : (k == k₀) = false := beq_eq_false_iff_ne.2 fun e => h e.symm
        simp only [List.lookup, hbeq]
        exact lookup_dictBump k k' rest

theorem afterBumps_add (prev : Option ℕ) (a b : ℕ) :
    afterBumps (afterBumps prev a) b = afterBumps prev (a + b) := by
  cases prev with
  | some v => simp [afterBumps, Nat.add_assoc]
  | none =>
    by_cases ha : a = 0
    · subst ha
      simp [afterBumps]
    · rw [afterBumps, if_neg ha, afterBumps, afterBumps,
        if_neg (by omega)]
      congr 1
      omega

/-- One fold step of `count_frequency` acts on a key's value by its
`keyHits`. -/
theorem lookup_step (d : List (ZKey × ℕ)) (tr : ℤ × ℤ × ℤ) (k : ZKey) :
    (dictBump (dictBump d (tr.1, tr.2.1) 4) (tr.2.2, -tr.2.1 - 1) 4).lookup k =
      afterBumps (d.lookup k) (keyHits tr k) := by
  rw [lookup_dictBump, lookup_dictBump, keyHits]
  by_cases h1 : (tr.1, tr.2.1) = k <;> by_cases h2 : (tr.2.2, -tr.2.1 - 1) = k <;>
    simp [h1, h2, afterBumps_add, afterBumps_zero]

/-- The value of a key after the whole fold of `count_frequency`. -/
theorem lookup_count_frequency_aux (k : ZKey) :
    ∀ (triples : List (ℤ × ℤ × ℤ)) (d : List (ZKey × ℕ)),
      ((triples.foldl (fun d tr =>
        dictBump (dictBump d (tr.1, tr.2.1) 4) (tr.2.2, -tr.2.1 - 1) 4) d).lookup k) =
        afterBumps (d.lookup k) (totalHits triples k)
  | [], d => by
    have h0 : totalHits [] k = 0 := rfl
    rw [List.foldl_nil, h0, afterBumps_zero]
  | tr :: triples, d => by
    rw [List.foldl_cons, lookup_count_frequency_aux k triples _, lookup_step,
      afterBumps_add, totalHits, totalHits, List.map_cons, List.sum_cons]

theorem lookup_count_frequency (triples : List (ℤ × ℤ × ℤ)) (k : ZKey) :
    (count_frequency triples 4).lookup k = afterBumps none (totalHits triples k) := by
  rw [count_frequency, lookup_count_frequency_aux k triples []]
  rfl

/-- Over nonnegative relation ids, a head-relation key is hit exactly
once per occurrence of that prefix. -/
theorem totalHits_hr (h r : ℤ) (hr0 : 0 ≤ r) :
    ∀ triples : List (ℤ × ℤ × ℤ), (∀ tr ∈ triples, 0 ≤ tr.2.1) →
      totalHits triples (h, r) =
        triples.countP fun tr => tr.1 = h ∧ tr.2.1 = r
  | [], _ => rfl
  | tr :: triples, hrel => by
    have hrest := totalHits_hr h r hr0 triples fun x hx => hrel x (List.mem_cons_of_mem _ hx)
    have hkey : keyHits tr (h, r) = if (tr.1 = h ∧ tr.2.1 = r) then 1 else 0 := by
      have hne : ¬ (tr.2.2, -tr.2.1 - 1) = (h, r) := by
        intro e
        have h2 : -tr.2.1 - 1 = r := congrArg Prod.snd e
        have := hrel tr (List.mem_cons_self _ _)
        omega
      rw [keyHits, if_neg hne]
      simp only [Nat.add_zero, Prod.mk.injEq]
    rw [totalHits, List.map_cons, List.sum_cons, List.countP_cons,
      hkey, ← hrest, totalHits, Nat.add_comm]
    rcases em (tr.1 = h ∧ tr.2.1 = r) with hc | hc <;> simp [hc]

/-- Over nonnegative relation ids, a relation-tail key is hit exactly
once per occurrence of that prefix. -/
theorem totalHits_rt (t r : ℤ) (hr0 : 0 ≤ r) :
    ∀ triples : List (ℤ × ℤ × ℤ), (∀ tr ∈ triples, 0 ≤ tr.2.1) →
      totalHits triples (t, -r - 1) =
        triples.countP fun tr => tr.2.2 = t ∧ tr.2.1 = r
  | [], _ => rfl
  | tr :: triples, hrel => by
    have hrest := totalHits_rt t r hr0 triples fun x hx => hrel x (List.mem_cons_of_mem _ hx)
    have hkey : keyHits tr (t, -r - 1) = if (tr.2.2 = t ∧ tr.2.1 = r) then 1 else 0 := by
      have hne : ¬ (tr.1, tr.2.1) = (t, -r - 1) := by
        intro e
        have h2 : tr.2.1 = -r - 1 := congrArg Prod.snd e
        have := hrel tr (List.mem_cons_self _ _)
        omega
      rw [keyHits, if_neg hne]
      simp only [Nat.zero_add, Prod.mk.injEq]
      have hiff : (-tr.2.1 - 1 = -r - 1) ↔ (tr.2.1 = r) := by omega
      rcases em (tr.2.2 = t ∧ tr.2.1 = r) with hc | hc
      · rw [if_pos ⟨hc.1, hiff.2 hc.2⟩, if_pos hc]
      · rw [if_neg (fun hx => hc ⟨hx.1, hiff.1 hx.2⟩), if_neg hc]
    rw [totalHits, List.map_cons, List.sum_cons, List.countP_cons,
      hkey, ← hrest, totalHits, Nat.add_comm]
    rcases em (tr.2.2 = t ∧ tr.2.1 = r) with hc | hc <;> simp [hc]

/-- C7 amended: for a triple of the training set (nonnegative relation
ids, and both of its prefixes occurring at least once), the subsampling
weight denominator is `(occ(h,r) + 3) + (occ(r,t) + 3)` — each prefix
frequency starts at `4` on its first occurrence and grows by `1` per
further occurrence — and the weight `sqrt(1/denominator)` is strictly
positive. -/
theorem claim_C7_subsampling_weight (triples : List (ℤ × ℤ × ℤ)) (h r t : ℤ)
    (hr0 : 0 ≤ r) (hrel : ∀ tr ∈ triples, 0 ≤ tr.2.1)
    (hHR : 1 ≤ triples.countP fun tr => tr.1 = h ∧ tr.2.1 = r)
    (hRT : 1 ≤ triples.countP fun tr => tr.2.2 = t ∧ tr.2.1 = r) :
    subFreq triples h r t =
      some ((3 + triples.countP fun tr => tr.1 = h ∧ tr.2.1 = r) +
        (3 + triples.countP fun tr => tr.2.2 = t ∧ tr.2.1 = r)) ∧
    (∀ w, subFreq triples h r t = some w → 0 < Real.sqrt (1 / (w : ℝ))) := by
  have hhr := lookup_count_frequency triples (h, r)
  have hrt := lookup_count_frequency triples (t, -r - 1)
  rw [totalHits_hr h r hr0 triples hrel] at hhr
  rw [totalHits_rt t r hr0 triples hrel] at hrt
  rw [afterBumps, if_neg (by omega)] at hhr
  rw [afterBumps, if_neg (by omega)] at hrt
  have hfreq : subFreq triples h r t =
      some ((3 + triples.countP fun tr => tr.1 = h ∧ tr.2.1 = r) +
        (3 + triples.countP fun tr => tr.2.2 = t ∧ tr.2.1 = r)) := by
    rw [subFreq, hhr, hrt]
  refine ⟨hfreq, fun w hw => ?_⟩
  rw [hfreq] at hw
  cases hw
  refine Real.sqrt_pos.2 ?_
  have : (0 : ℝ) <
      ((3 + triples.countP fun tr => tr.1 = h ∧ tr.2.1 = r) +
        (3 + triples.countP fun tr => tr.2.2 = t ∧ tr.2.1 = r) : ℕ) := by
    positivity
  positivity

/-- C7 witness: for the doctest training set `[(1,1,2), (2,2,3)]`, each
prefix of `(1,1,2)` occurs once, so the weight denominator is `8` and
the weight is `sqrt(1/8) ≈ 0.3536`, the doctest's printed value. -/
theorem claim_C7_subsampling_weight_witness :
    subFreq [((1 : ℤ), (1 : ℤ), (2 : ℤ)), (2, 2, 3)] 1 1 2 =
      some ((3 + [((1 : ℤ), (1 : ℤ), (2 : ℤ)), (2, 2, 3)].countP
          fun tr => tr.1 = 1 ∧ tr.2.1 = 1) +
        (3 + [((1 : ℤ), (1 : ℤ), (2 : ℤ)), (2, 2, 3)].countP
          fun tr => tr.2.2 = 2 ∧ tr.2.1 = 1)) ∧
    subFreq [((1 : ℤ), (1 : ℤ), (2 : ℤ)), (2, 2, 3)] 1 1 2 = some 8 := by
  have h := claim_C7_subsampling_weight [((1 : ℤ), (1 : ℤ), (2 : ℤ)), (2, 2, 3)]
    1 1 2 (by decide) (by decide) (by decide) (by decide)
  exact ⟨h.1, by decide⟩

/-- C7 counterexample: on the training set `[(1,1,2), (2,2,3)]` every
prefix occurs exactly once, yet the weight of `(1,1,2)` is
`sqrt(1/8)` (the doctest prints `0.3536`), not the claimed
`1/sqrt(1+1) = 1/sqrt(2) ≈ 0.7071`. -/
theorem claim_C7_counterexample :
    subFreq [((1 : ℤ), (1 : ℤ), (2 : ℤ)), (2, 2, 3)] 1 1 2 = some 8 ∧
    Real.sqrt (1 / 8) ≠ 1 / Real.sqrt 2 := by
  refine ⟨by decide, fun heq => ?_⟩
  rw [one_div (Real.sqrt 2), ← Real.sqrt_inv] at heq
  have h18 : (0 : ℝ) ≤ 1 / 8 := by norm_num
  have h12 : (0 : ℝ) ≤ (2 : ℝ)⁻¹ := by norm_num
  have := (Real.sqrt_inj h18 h12).1 heq
  norm_num at this

/-! Dataset partitioning (`src/mkb/datasets/multi_kb.py`). -/

/-- The lengths of the parts `np.array_split` produces for `n` parts of
a length-`l` sequence: the first `l mod n` parts hold `l / n + 1`
elements, the remaining ones `l / n`. -/
def arraySplitSizes (l n : ℕ) : List ℕ :=
  (List.range n).map fun i => if i < l % n then l / n + 1 else l / n

/-- Cut a list into consecutive pieces of the given sizes. -/
def splitSizes : List α → List ℕ → List (List α)
  | _, [] => []
  | xs, s :: rest => xs.take s :: splitSizes (xs.drop s) rest

/-- `np.array_split(xs, n)`. -/
def arraySplit (xs : List α) (n : ℕ) : List (List α) :=
  splitSizes xs (arraySplitSizes xs.length n)

/-- `enumerate` of the Python loop. -/
def enumerate (l : List α) : List (ℕ × α) := (List.range l.length).zip l

/-- The `for i, frame in enumerate(np.array_split(...))` loop of
`MultiKb.split_train`: frames whose index is in `id_set` are appended to
the kept training list, the others to `excluded_triples`. -/
def selectParts (idSet : List ℕ) : List (ℕ × List α) → List α × List α
  | [] => ([], [])
  | (i, frame) :: rest =>
    let p := selectParts idSet rest
    if i ∈ idSet then (frame ++ p.1, p.2) else (p.1, frame ++ p.2)

/-- `MultiKb.split_train` after the seeded shuffle (the shuffle of
`random.Random(seed)` is modelled by quantifying over the shuffled
permutation of the training list; `format_triples` is the identity on
triples). -/
def split_train (shuffled : List Triple) (nPart : ℕ) (idSet : List ℕ) :
    List Triple × List Triple :=
  selectParts idSet (enumerate (arraySplit shuffled nPart))

/-- `MultiKb.true_triples`:
`self.train + self.excluded_triples + self.test + self.valid`. -/
def true_triples (train excluded test valid : List Triple) : List Triple :=
  train ++ excluded ++ test ++ valid

theorem arraySplitSizes_sum (l n : ℕ) (hn : 0 < n) : (arraySplitSizes l n).sum = l := by
  have hbridge : (arraySplitSizes l n).sum =
      ∑ i ∈ Finset.range n, (if i < l % n then l / n + 1 else l / n) := rfl
  rw [hbridge,
    Finset.sum_congr rfl fun i _ =>
      (by split <;> omega : (if i < l % n then l / n + 1 else l / n) =
        l / n + (if i < l % n then 1 else 0)),
    Finset.sum_add_distrib, Finset.sum_const, Finset.card_range, Finset.sum_boole]
  have hfilter : (Finset.range n).filter (fun i => i < l % n) = Finset.range (l % n) := by
    have hmod : l % n < n := Nat.mod_lt _ hn
    ext i
    simp only [Finset.mem_filter, Finset.mem_range]
    omega
  rw [hfilter, Finset.card_range]
  simp only [smul_eq_mul, Nat.cast_id]
  have := Nat.div_add_mod l n
  omega

/-- Splitting into pieces of given sizes and flattening keeps the first
`sum of sizes` elements. -/
theorem splitSizes_flatten :
    ∀ (sizes : List ℕ) (xs : List α),
      (splitSizes xs sizes).flatten = xs.take sizes.sum
  | [], xs => by simp [splitSizes]
  | s :: rest, xs => by
    rw [splitSizes, List.flatten_cons, splitSizes_flatten rest (xs.drop s),
      List.sum_cons, List.take_add]

/-- `np.array_split` loses no element: the parts concatenate back to the
input. -/
theorem arraySplit_flatten (xs : List α) (n : ℕ) (hn : 0 < n) :
    (arraySplit xs n).flatten = xs := by
  rw [arraySplit, splitSizes_flatten, arraySplitSizes_sum _ _ hn, List.take_length]

/-- The kept and excluded frames together are a permutation of all the
frames. -/
theorem selectParts_perm (idSet : List ℕ) :
    ∀ pl : List (ℕ × List α),
      List.Perm ((selectParts idSet pl).1 ++ (selectParts idSet pl).2)
        (pl.map Prod.snd).flatten
  | [] => by simp [selectParts]
  | (i, frame) :: rest => by
    have ih := selectParts_perm idSet rest
    rw [selectParts]
    by_cases h : i ∈ idSet
    · simp only [if_pos h, List.map_cons, List.flatten_cons]
      rw [List.append_assoc]
      exact ih.append_left frame
    · simp only [if_neg h, List.map_cons, List.flatten_cons]
      exact (List.perm_append_comm_assoc _ _ _).trans (ih.append_left frame)

theorem enumerate_map_snd (l : List α) : (enumerate l).map Prod.snd = l :=
  List.map_snd_zip _ _ (by rw [List.length_range])

/-- C9: `split_train` partitions the shuffled training set: each
original training triple lands in exactly one of the kept-train and
excluded lists (their concatenation is a permutation of the training
set, so the per-triple counts add up), and every excluded triple is
contained in the filtering superset
`true_triples = train ++ excluded ++ test ++ valid`. -/
theorem claim_C9_partition_and_true_triples (train shuffled test valid : List Triple)
    (nPart : ℕ) (idSet : List ℕ) (hn : 0 < nPart)
    (hshuffle : List.Perm shuffled train) :
    List.Perm ((split_train shuffled nPart idSet).1 ++
      (split_train shuffled nPart idSet).2) train ∧
    (∀ x : Triple, ((split_train shuffled nPart idSet).1).countP (fun y => y = x) +
      ((split_train shuffled nPart idSet).2).countP (fun y => y = x) =
      train.countP (fun y => y = x)) ∧
    (∀ x ∈ (split_train shuffled nPart idSet).2,
      x ∈ true_triples (split_train shuffled nPart idSet).1
        (split_train shuffled nPart idSet).2 test valid) := by
  have hperm : List.Perm ((split_train shuffled nPart idSet).1 ++
      (split_train shuffled nPart idSet).2) train := by
    rw [split_train]
    refine ((selectParts_perm idSet _).trans ?_).trans hshuffle
    rw [enumerate_map_snd, arraySplit_flatten _ _ hn]
  refine ⟨hperm, fun x => ?_, fun x hx => ?_⟩
  · rw [← List.countP_append]
    exact hperm.countP_eq _
  · rw [true_triples]
    simp only [List.mem_append]
    exact Or.inl (Or.inl (Or.inr hx))

/-- C9 witness: a three-triple training set split into two parts with
part `0` kept; the two parts partition the set and the excluded triple
is in the filtering superset. -/
theorem claim_C9_partition_and_true_triples_witness :
    (List.Perm ((split_train [(0, 0, 1), (1, 1, 2), (2, 2, 3)] 2 [0]).1 ++
      (split_train [(0, 0, 1), (1, 1, 2), (2, 2, 3)] 2 [0]).2)
      [(0, 0, 1), (1, 1, 2), (2, 2, 3)]) ∧
    (∀ x : Triple, ((split_train [(0, 0, 1), (1, 1, 2), (2, 2, 3)] 2 [0]).1).countP (fun y => y = x) +
      ((split_train [(0, 0, 1), (1, 1, 2), (2, 2, 3)] 2 [0]).2).countP (fun y => y = x) =
      ([(0, 0, 1), (1, 1, 2), (2, 2, 3)] : List Triple).countP (fun y => y = x)) ∧
    (∀ x ∈ (split_train [(0, 0, 1), (1, 1, 2), (2, 2, 3)] 2 [0]).2,
      x ∈ true_triples (split_train [(0, 0, 1), (1, 1, 2), (2, 2, 3)] 2 [0]).1
        (split_train [(0, 0, 1), (1, 1, 2), (2, 2, 3)] 2 [0]).2 [] []) :=
  claim_C9_partition_and_true_triples [(0, 0, 1), (1, 1, 2), (2, 2, 3)]
    [(0, 0, 1), (1, 1, 2), (2, 2, 3)] [] [] 2 [0] (by decide) (List.Perm.refl _)

/-! Entity-table corruption (`MultiKb.corrupt_entities`).  A Python dict
is an association list in insertion order. -/

abbrev ETable := List (String × ℕ)

/-- Python dict assignment `d[k] = v`: update the entry in place if the
key is present (keeping its position), else append at the end. -/
def dictSet : ETable → String → ℕ → ETable
  | [], k, v => [(k, v)]
  | (k', v') :: rest, k, v =>
    if k' = k then (k', v) :: rest else (k', v') :: dictSet rest k v

/-- Python `dict.pop(k)`: remove the first entry holding the key;
`none` is the `KeyError` when the key is absent. -/
def dictPop : ETable → String → Option ETable
  | [], _ => none
  | (k', v') :: rest, k =>
    if k' = k then some rest
    else (dictPop rest k).map fun d => (k', v') :: d

/-- The reverse table `e_prime = {value: key for key, value in
entities.items()}` built once from the input: for duplicated values the
later entry wins, hence the lookup over the reversed list. -/
def reverseLookup (entities : ETable) (v : ℕ) : Option String :=
  (entities.reverse.find? fun p => p.2 = v).map Prod.fst

/-- The `for id_e in entities_id_corrupt` loop of `corrupt_entities`
over the ids drawn by `rng.choice` (the draw of the external seeded
generator is the parameter `chosen`): pop the id's original name and
re-insert the suffixed name with the same id. -/
def corruptLoop (orig : ETable) (suffix : String) : ETable → List ℕ → Option ETable
  | d, [] => some d
  | d, idE :: rest =>
    match reverseLookup orig idE with
    | none => none
    | some e =>
      match dictPop d e with
      | none => none
      | some d' => corruptLoop orig suffix (dictSet d' (e ++ suffix) idE) rest

/-- Comparison by id used by the final
`sorted(entities.items(), key=lambda item: item[1])`. -/
def leVal (a b : String × ℕ) : Prop := a.2 ≤ b.2

instance : DecidableRel leVal := fun a b => inferInstanceAs (Decidable (a.2 ≤ b.2))

instance : IsTotal (String × ℕ) leVal := ⟨fun a b => Nat.le_total a.2 b.2⟩

instance : IsTrans (String × ℕ) leVal := ⟨fun _ _ _ => Nat.le_trans⟩

/-- `MultiKb.corrupt_entities`: rename the drawn ids' entries and return
the table sorted by id.  The suffix stands for
`_{self.id_set}_{self.n_part}`. -/
def corrupt_entities (entities : ETable) (suffix : String) (chosen : List ℕ) :
    Option ETable :=
  (corruptLoop entities suffix entities chosen).map fun d =>
    List.insertionSort leVal d

/-- Appending the same suffix to different strings keeps them
different. -/
theorem string_append_right_cancel {a b s : String} (h : a ++ s = b ++ s) : a = b := by
  have hd := congrArg String.data h
  rw [String.data_append, String.data_append] at hd
  exact String.ext (List.append_cancel_right hd)

/-- With nodup keys, `pop` removes exactly the key's single entry. -/
theorem dictPop_nodup_keys :
    ∀ (d : ETable) (k : String), k ∈ d.map Prod.fst → (d.map Prod.fst).Nodup →
      dictPop d k = some (d.filter fun p => p.1 ≠ k)
  | [], k, hk, _ => by simp at hk
  | (k', v') :: rest, k, hk, hnd => by
    rw [List.map_cons, List.nodup_cons] at hnd
    by_cases h : k' = k
    · subst h
      rw [dictPop, if_pos rfl, List.filter_cons_of_neg (by simp)]
      rw [List.filter_eq_self.2 fun p hp => ?_]
      simp only [ne_eq, decide_eq_true_eq]
      refine fun e => hnd.1 ?_
      exact List.mem_map.2 ⟨p, hp, e⟩
    · rw [List.map_cons] at hk
      have hk' : k ∈ rest.map Prod.fst := by
        rcases List.mem_cons.1 hk with e | hm
        · exact absurd e.symm h
        · exact hm
      rw [dictPop, if_neg h, dictPop_nodup_keys rest k hk' hnd.2,
        List.filter_cons_of_pos (by simp [h])]
      rfl

/-- Setting an absent key appends the entry at the end. -/
theorem dictSet_append :
    ∀ (d : ETable) (k : String) (v : ℕ), k ∉ d.map Prod.fst →
      dictSet d k v = d ++ [(k, v)]
  | [], _, _, _ => rfl
  | (k', v') :: rest, k, v, hk => by
    rw [List.map_cons] at hk
    have h : k' ≠ k := fun e => hk (by rw [e]; exact List.mem_cons_self _ _)
    rw [dictSet, if_neg h,
      dictSet_append rest k v fun hm => hk (List.mem_cons_of_mem _ hm)]
    rfl

/-- A successful reverse lookup names an entry of the table. -/
theorem reverseLookup_entry (entities : ETable) (i : ℕ) (nm : String)
    (h : reverseLookup entities i = some nm) : (nm, i) ∈ entities := by
  rw [reverseLookup] at h
  cases hfind : entities.reverse.find? fun p => p.2 = i with
  | none => rw [hfind] at h; exact absurd h (by simp)
  | some p =>
    rw [hfind] at h
    have hp : p ∈ entities.reverse := List.mem_of_find?_eq_some hfind
    have hval : p.2 = i := by
      have := List.find?_some hfind
      simpa using this
    have hfst : p.1 = nm := by simpa using h
    have : p = (nm, i) := by
      rw [← hfst, ← hval]
    exact this ▸ List.mem_reverse.1 hp

/-- An id occurring in the table has a reverse lookup. -/
theorem reverseLookup_isSome (entities : ETable) (i : ℕ)
    (h : i ∈ entities.map Prod.snd) : ∃ nm, reverseLookup entities i = some nm := by
  obtain ⟨p, hp, hval⟩ := List.mem_map.1 h
  have hmem : p ∈ entities.reverse := List.mem_reverse.2 hp
  have hsome : (entities.reverse.find? fun q => q.2 = i).isSome :=
    List.find?_isSome.2 ⟨p, hmem, by simp [hval]⟩
  obtain ⟨q, hq⟩ := Option.isSome_iff_exists.1 hsome
  exact ⟨q.1, by rw [reverseLookup, hq]; rfl⟩

/-- With nodup keys a key determines its value. -/
theorem keys_inj (entities : ETable) (hkeys : (entities.map Prod.fst).Nodup)
    {k : String} {v₁ v₂ : ℕ} (h₁ : (k, v₁) ∈ entities) (h₂ : (k, v₂) ∈ entities) :
    v₁ = v₂ :=
  congrArg Prod.snd (List.inj_on_of_nodup_map hkeys h₁ h₂ rfl)

/-- With nodup values a value determines its key. -/
theorem vals_inj (entities : ETable) (hvals : (entities.map Prod.snd).Nodup)
    {k₁ k₂ : String} {v : ℕ} (h₁ : (k₁, v) ∈ entities) (h₂ : (k₂, v) ∈ entities) :
    k₁ = k₂ :=
  congrArg Prod.fst (List.inj_on_of_nodup_map hvals h₁ h₂ rfl)

/-- Popping a key found on the left of an append never looks right. -/
theorem dictPop_append :
    ∀ (xs : ETable) (ys : ETable) (k : String) (xs' : ETable),
      dictPop xs k = some xs' → dictPop (xs ++ ys) k = some (xs' ++ ys)
  | [], _, _, _, h => by rw [dictPop] at h; cases h
  | (k', v') :: xs, ys, k, xs', h => by
    rw [dictPop] at h
    by_cases hk : k' = k
    · rw [if_pos hk] at h
      cases h
      rw [List.cons_append, dictPop, if_pos hk]
    · rw [if_neg hk] at h
      cases hd : dictPop xs k with
      | none => rw [hd] at h; cases h
      | some d =>
        rw [hd] at h
        cases h
        rw [List.cons_append, dictPop, if_neg hk,
          dictPop_append xs ys k d hd]
        rfl

/-- The table state after the renaming loop has processed the ids of
`done`, in order: the untouched entries (ids outside `done`) in their
original order, then the renamed entries in processing order. -/
def stateOf (entities : ETable) (suffix : String) (done : List ℕ) : ETable :=
  (entities.filter fun p => p.2 ∉ done) ++
    done.filterMap fun i => (reverseLookup entities i).map fun nm => (nm ++ suffix, i)

theorem stateOf_nil (entities : ETable) (suffix : String) :
    stateOf entities suffix [] = entities := by
  rw [stateOf]
  simp

/-- Closed form of the renaming loop: processing the ids of `rest` on
top of the state for `done` ends in the state for `done ++ rest`,
provided the ids are distinct, present in the table, and no suffixed
name of a processed entry collides with an original name. -/
theorem corruptLoop_spec (entities : ETable) (suffix : String)
    (hkeys : (entities.map Prod.fst).Nodup)
    (hvals : (entities.map Prod.snd).Nodup) :
    ∀ (rest done : List ℕ),
      (done ++ rest).Nodup →
      (∀ i ∈ done ++ rest, i ∈ entities.map Prod.snd) →
      (∀ p ∈ entities, p.2 ∈ done ++ rest → (p.1 ++ suffix) ∉ entities.map Prod.fst) →
      corruptLoop entities suffix (stateOf entities suffix done) rest =
        some (stateOf entities suffix (done ++ rest))
  | [], done, _, _, _ => by rw [corruptLoop, List.append_nil]
  | c :: rest, done, hnd, hmem, hfresh => by
    have hcmem : c ∈ entities.map Prod.snd := hmem c (by simp)
    obtain ⟨nm, hnm⟩ := reverseLookup_isSome entities c hcmem
    have hentry : (nm, c) ∈ entities := reverseLookup_entry entities c nm hnm
    have hcdone : c ∉ done := fun hc =>
      (List.nodup_append.1 hnd).2.2 hc (List.mem_cons_self _ _)
    -- the entry to pop sits in the untouched part of the state
    have hmemfilter : (nm, c) ∈ entities.filter fun p => p.2 ∉ done :=
      List.mem_filter.2 ⟨hentry, by simpa using hcdone⟩
    have hkeyfilter : nm ∈ (entities.filter fun p => p.2 ∉ done).map Prod.fst :=
      List.mem_map.2 ⟨(nm, c), hmemfilter, rfl⟩
    have hndfilter : ((entities.filter fun p => p.2 ∉ done).map Prod.fst).Nodup :=
      hkeys.sublist ((List.filter_sublist _).map Prod.fst)
    have hpopfilter := dictPop_nodup_keys _ nm hkeyfilter hndfilter
    have hpop := dictPop_append _
      (done.filterMap fun i => (reverseLookup entities i).map fun nm' => (nm' ++ suffix, i))
      nm _ hpopfilter
    -- the suffixed key of the popped entry is new to the whole state
    have hsufkey : (nm ++ suffix) ∉ (stateOf entities suffix done).map Prod.fst := by
      rw [stateOf, List.map_append]
      intro hin
      rcases List.mem_append.1 hin with hin | hin
      · obtain ⟨p, hp, hpk⟩ := List.mem_map.1 hin
        have hporig : p ∈ entities := List.mem_of_mem_filter hp
        exact hfresh (nm, c) hentry (by simp)
          (hpk ▸ List.mem_map.2 ⟨p, hporig, rfl⟩)
      · obtain ⟨q, hq, hqk⟩ := List.mem_map.1 hin
        obtain ⟨i, hi, hqdef⟩ := List.mem_filterMap.1 hq
        obtain ⟨nmi, hnmi⟩ := reverseLookup_isSome entities i (hmem i (by simp [hi]))
        rw [hnmi] at hqdef
        simp only [Option.map_some', Option.some.injEq] at hqdef
        have hkeq : nmi ++ suffix = nm ++ suffix := by rw [← hqk, ← hqdef]
        have hnmeq : nmi = nm := string_append_right_cancel hkeq
        have hientry : (nm, i) ∈ entities :=
          hnmeq ▸ reverseLookup_entry entities i nmi hnmi
        have : i = c := keys_inj entities hkeys hientry hentry
        exact hcdone (this ▸ hi)
    -- after pop the untouched part shrinks to the ids outside done ++ [c]
    have hfiltereq : ((entities.filter fun p => p.2 ∉ done).filter fun p => p.1 ≠ nm) =
        entities.filter fun p => p.2 ∉ done ++ [c] := by
      rw [List.filter_filter]
      refine List.filter_congr fun p hp => ?_
      have h1 : (p.1 = nm) ↔ (p.2 = c) := by
        constructor
        · intro e
          have hp' : (nm, p.2) ∈ entities := by
            have hpe : p = (nm, p.2) := Prod.ext e rfl
            rwa [hpe] at hp
          exact keys_inj entities hkeys hp' hentry
        · intro e
          have hp' : (p.1, c) ∈ entities := by
            have hpe : p = (p.1, c) := Prod.ext rfl e
            rwa [hpe] at hp
          exact vals_inj entities hvals hp' hentry
      have h2 : ((p.1 ≠ nm) ∧ (p.2 ∉ done)) ↔ (p.2 ∉ done ++ [c]) := by
        rw [List.mem_append, List.mem_singleton]
        constructor
        · rintro ⟨hne, hd1⟩ h'
          rcases h' with h' | h'
          · exact hd1 h'
          · exact hne (h1.2 h')
        · intro hno
          exact ⟨fun he => hno (Or.inr (h1.1 he)), fun hd1 => hno (Or.inl hd1)⟩
      rw [← Bool.decide_and]
      exact decide_eq_decide.2 h2
    -- the suffixed key is still absent after the pop
    have hsub : List.Sublist
        (((entities.filter fun p => p.2 ∉ done).filter fun p => p.1 ≠ nm) ++
          done.filterMap fun i => (reverseLookup entities i).map fun nm' => (nm' ++ suffix, i))
        (stateOf entities suffix done) := by
      rw [stateOf]
      exact (List.filter_sublist _).append_right _
    have hsufkey' : (nm ++ suffix) ∉
        (((entities.filter fun p => p.2 ∉ done).filter fun p => p.1 ≠ nm) ++
          done.filterMap fun i => (reverseLookup entities i).map fun nm' => (nm' ++ suffix, i)).map
          Prod.fst :=
      fun hin => hsufkey ((hsub.map Prod.fst).subset hin)
    -- the popped-and-reinserted state is the state for done ++ [c]
    have hstate : (((entities.filter fun p => p.2 ∉ done).filter fun p => p.1 ≠ nm) ++
          done.filterMap fun i => (reverseLookup entities i).map fun nm' => (nm' ++ suffix, i)) ++
          [(nm ++ suffix, c)] = stateOf entities suffix (done ++ [c]) := by
      rw [stateOf, List.filterMap_append, hfiltereq, List.append_assoc]
      have hsing : ([c].filterMap fun i =>
          (reverseLookup entities i).map fun nm' => (nm' ++ suffix, i)) = [(nm ++ suffix, c)] := by
        simp [hnm]
      rw [hsing]
    have hassoc : (done ++ [c]) ++ rest = done ++ c :: rest := by simp
    have hrec := corruptLoop_spec entities suffix hkeys hvals rest (done ++ [c])
      (by rw [hassoc]; exact hnd)
      (by rw [hassoc]; exact hmem)
      (by rw [hassoc]; exact hfresh)
    rw [hassoc] at hrec
    have hpop' : dictPop (stateOf entities suffix done) nm =
        some (((entities.filter fun p => p.2 ∉ done).filter fun p => p.1 ≠ nm) ++
          done.filterMap fun i =>
            (reverseLookup entities i).map fun nm' => (nm' ++ suffix, i)) := hpop
    simp only [corruptLoop, hnm, hpop']
    rw [dictSet_append _ _ _ hsufkey', hstate]
    exact hrec

/-- The renamed block of the final state carries exactly the drawn ids,
in draw order. -/
theorem sufPart_map_snd (entities : ETable) (suffix : String) :
    ∀ chosen : List ℕ, (∀ i ∈ chosen, i ∈ entities.map Prod.snd) →
      ((chosen.filterMap fun i =>
        (reverseLookup entities i).map fun nm => (nm ++ suffix, i)).map Prod.snd) = chosen
  | [], _ => rfl
  | c :: chosen, h => by
    obtain ⟨nm, hnm⟩ := reverseLookup_isSome entities c (h c (List.mem_cons_self _ _))
    rw [List.filterMap_cons]
    simp only [hnm, Option.map_some']
    rw [List.map_cons, sufPart_map_snd entities suffix chosen
      fun i hi => h i (List.mem_cons_of_mem _ hi)]

/-- C10 amended: for an entity table with distinct names and dense ids
`[0, n)`, and a draw of distinct in-range ids none of whose suffixed
names collides with a name of the table, `corrupt_entities` returns a
table with the same number of entries and the same ids (as a
permutation), sorted by id; every drawn id's entry is renamed to its
original name plus the suffix while keeping its id, and every other
entry is kept unchanged. -/
theorem claim_C10_corrupt_entities (entities : ETable) (suffix : String)
    (chosen : List ℕ)
    (hkeys : (entities.map Prod.fst).Nodup)
    (hdense : List.Perm (entities.map Prod.snd) (List.range entities.length))
    (hnd : chosen.Nodup)
    (hmem : ∀ i ∈ chosen, i ∈ entities.map Prod.snd)
    (hfresh : ∀ p ∈ entities, p.2 ∈ chosen → (p.1 ++ suffix) ∉ entities.map Prod.fst) :
    ∃ out, corrupt_entities entities suffix chosen = some out ∧
      out.length = entities.length ∧
      List.Perm (out.map Prod.snd) (entities.map Prod.snd) ∧
      List.Sorted leVal out ∧
      (∀ i ∈ chosen, ∀ nm, reverseLookup entities i = some nm → (nm ++ suffix, i) ∈ out) ∧
      (∀ p ∈ entities, p.2 ∉ chosen → p ∈ out) := by
  have hvals : (entities.map Prod.snd).Nodup :=
    hdense.nodup_iff.2 (List.nodup_range _)
  have hloop := corruptLoop_spec entities suffix hkeys hvals chosen []
    (by simpa using hnd) (by simpa using hmem)
    (by simpa using hfresh)
  rw [stateOf_nil, List.nil_append] at hloop
  refine ⟨List.insertionSort leVal (stateOf entities suffix chosen), ?_, ?_, ?_, ?_, ?_, ?_⟩
  · rw [corrupt_entities, hloop]
    rfl
  · -- length from the values permutation below
    have hperm := List.perm_insertionSort leVal (stateOf entities suffix chosen)
    rw [hperm.length_eq, stateOf, List.length_append]
    have hsuf : (chosen.filterMap fun i =>
        (reverseLookup entities i).map fun nm => (nm ++ suffix, i)).length = chosen.length := by
      have := sufPart_map_snd entities suffix chosen hmem
      calc (chosen.filterMap fun i =>
            (reverseLookup entities i).map fun nm => (nm ++ suffix, i)).length
          = ((chosen.filterMap fun i =>
            (reverseLookup entities i).map fun nm => (nm ++ suffix, i)).map Prod.snd).length := by
            rw [List.length_map]
        _ = chosen.length := by rw [this]
    rw [hsuf]
    have hfl : (entities.filter fun p => p.2 ∉ chosen).length =
        ((entities.map Prod.snd).filter fun v => v ∉ chosen).length := by
      have hcomm : ((entities.filter fun p => p.2 ∉ chosen).map Prod.snd) =
          (entities.map Prod.snd).filter fun v => v ∉ chosen := by
        rw [List.filter_map]
        rfl
      rw [← hcomm, List.length_map]
    rw [hfl]
    have hchosenperm : List.Perm ((entities.map Prod.snd).filter fun v => v ∈ chosen)
        chosen := by
      refine (List.perm_ext_iff_of_nodup (hvals.filter _) hnd).2 fun a => ?_
      simp only [List.mem_filter, decide_eq_true_eq]
      exact ⟨fun h => h.2, fun h => ⟨hmem a h, h⟩⟩
    have hpart := List.filter_append_perm (fun v => v ∉ chosen) (entities.map Prod.snd)
    have hlen := hpart.length_eq
    rw [List.length_append] at hlen
    have hneg : ((entities.map Prod.snd).filter fun v => !decide (v ∉ chosen)).length =
        chosen.length := by
      have hcongr : ((entities.map Prod.snd).filter fun v => !decide (v ∉ chosen)) =
          ((entities.map Prod.snd).filter fun v => v ∈ chosen) :=
        List.filter_congr fun v _ => by simp
      rw [hcongr, hchosenperm.length_eq]
    rw [List.length_map] at hlen
    omega
  · have hperm := List.perm_insertionSort leVal (stateOf entities suffix chosen)
    refine ((hperm.map Prod.snd).trans ?_)
    rw [stateOf, List.map_append, sufPart_map_snd entities suffix chosen hmem]
    have hcomm : ((entities.filter fun p => p.2 ∉ chosen).map Prod.snd) =
        (entities.map Prod.snd).filter fun v => v ∉ chosen := by
      rw [List.filter_map]
      rfl
    rw [hcomm]
    have hchosenperm : List.Perm chosen
        ((entities.map Prod.snd).filter fun v => !decide (v ∉ chosen)) := by
      have hcongr : ((entities.map Prod.snd).filter fun v => !decide (v ∉ chosen)) =
          ((entities.map Prod.snd).filter fun v => v ∈ chosen) :=
        List.filter_congr fun v _ => by simp
      rw [hcongr]
      refine (List.perm_ext_iff_of_nodup hnd (hvals.filter _)).2 fun a => ?_
      simp only [List.mem_filter, decide_eq_true_eq]
      exact ⟨fun h => ⟨hmem a h, h⟩, fun h => h.2⟩
    exact ((hchosenperm.append_left _).trans
      (List.filter_append_perm (fun v => v ∉ chosen) (entities.map Prod.snd)))
  · exact List.sorted_insertionSort leVal _
  · intro i hi nm hnm
    rw [List.mem_insertionSort, stateOf, List.mem_append]
    exact Or.inr (List.mem_filterMap.2 ⟨i, hi, by rw [hnm]; rfl⟩)
  · intro p hp hpc
    rw [List.mem_insertionSort, stateOf, List.mem_append]
    exact Or.inl (List.mem_filter.2 ⟨hp, by simpa using hpc⟩)

/-- C10 witness: for the table `a:0, b:1, c:2` with suffix `_s` and
drawn id `1`, the output keeps three sorted entries `a:0, b_s:1, c:2`. -/
theorem claim_C10_corrupt_entities_witness :
    corrupt_entities [("a", 0), ("b", 1), ("c", 2)] "_s" [1] =
      some [("a", 0), ("b_s", 1), ("c", 2)] ∧
    (∃ out, corrupt_entities [("a", 0), ("b", 1), ("c", 2)] "_s" [1] = some out ∧
      out.length = ([("a", 0), ("b", 1), ("c", 2)] : ETable).length ∧
      List.Perm (out.map Prod.snd) (([("a", 0), ("b", 1), ("c", 2)] : ETable).map Prod.snd) ∧
      List.Sorted leVal out ∧
      (∀ i ∈ [1], ∀ nm, reverseLookup [("a", 0), ("b", 1), ("c", 2)] i = some nm →
        (nm ++ "_s", i) ∈ out) ∧
      (∀ p ∈ ([("a", 0), ("b", 1), ("c", 2)] : ETable), p.2 ∉ [1] → p ∈ out)) :=
  ⟨by decide, claim_C10_corrupt_entities [("a", 0), ("b", 1), ("c", 2)] "_s" [1]
    (by decide) (by decide) (by decide) (by decide) (by decide)⟩

/-- C10 counterexample: the claim fails without the freshness proviso.
For the table `a:0, a_[0]_1:1` (names distinct, ids dense `[0, 2)`) with
suffix `_[0]_1` and the ids drawn in the order `0, 1` — an order the
without-replacement draw of `rng.choice(range(2), 2)` produces for some
seeds — renaming `a` overwrites the existing entry `a_[0]_1`, so the
output has one entry instead of two and the id set loses `0`. -/
theorem claim_C10_counterexample :
    corrupt_entities [("a", 0), ("a_[0]_1", 1)] "_[0]_1" [0, 1] =
      some [("a_[0]_1_[0]_1", 1)] ∧
    (corrupt_entities [("a", 0), ("a_[0]_1", 1)] "_[0]_1" [0, 1]).map List.length =
      some 1 ∧
    ([("a", 0), ("a_[0]_1", 1)] : ETable).length = 2 := by
  refine ⟨?_, ?_, rfl⟩ <;> decide

end Mkb
